import Mathlib

/-!
Verification of the DDPM core (`src/main.py`) against its natural-language
specification.  The seven schedule sequences, the forward-diffusion corruption,
the loss shape handling and the reverse sampler are shallowly embedded over the
real numbers; tensors are modelled as index functions, `torch` arrays as Lean
lists, and the randomness sources (`randint`, `randn`) as oracle parameters
constrained to their support.
-/

namespace DDPM

/-- `torch.cumsum` applied to a list: entry `t` of the result is the sum of the
first `t + 1` entries of the input. -/
noncomputable def cumsum (l : List ℝ) : List ℝ :=
  (List.range l.length).map (fun t => ∑ s ∈ Finset.range (t + 1), l.getD s 0)

/-- `beta_t = (beta2 - beta1) * torch.arange(0, T + 1) / T + beta1`
(`src/main.py` line 43): `T + 1` linearly spaced values. -/
noncomputable def beta_t (beta1 beta2 : ℝ) (T : ℕ) : List ℝ :=
  (List.range (T + 1)).map (fun t : ℕ => (beta2 - beta1) * (t : ℝ) / (T : ℝ) + beta1)

/-- `alpha_t = 1 - beta_t` (line 45). -/
noncomputable def alpha_t (beta1 beta2 : ℝ) (T : ℕ) : List ℝ :=
  (beta_t beta1 beta2 T).map (fun b => 1 - b)

/-- `log_alpha_t = torch.log(alpha_t)` (line 46). -/
noncomputable def log_alpha_t (beta1 beta2 : ℝ) (T : ℕ) : List ℝ :=
  (alpha_t beta1 beta2 T).map Real.log

/-- `alphabar_t = torch.cumsum(log_alpha_t, dim=0).exp()` (line 47). -/
noncomputable def alphabar_t (beta1 beta2 : ℝ) (T : ℕ) : List ℝ :=
  (cumsum (log_alpha_t beta1 beta2 T)).map Real.exp

/-- `sqrt_beta_t = torch.sqrt(beta_t)` (line 44). -/
noncomputable def sqrt_beta_t (beta1 beta2 : ℝ) (T : ℕ) : List ℝ :=
  (beta_t beta1 beta2 T).map Real.sqrt

/-- `sqrtab = torch.sqrt(alphabar_t)` (line 49). -/
noncomputable def sqrtab (beta1 beta2 : ℝ) (T : ℕ) : List ℝ :=
  (alphabar_t beta1 beta2 T).map Real.sqrt

/-- `oneover_sqrta = 1 / torch.sqrt(alpha_t)` (line 50). -/
noncomputable def oneover_sqrta (beta1 beta2 : ℝ) (T : ℕ) : List ℝ :=
  (alpha_t beta1 beta2 T).map (fun a => 1 / Real.sqrt a)

/-- `sqrtmab = torch.sqrt(1 - alphabar_t)` (line 52). -/
noncomputable def sqrtmab (beta1 beta2 : ℝ) (T : ℕ) : List ℝ :=
  (alphabar_t beta1 beta2 T).map (fun ab => Real.sqrt (1 - ab))

/-- `mab_over_sqrtmab_inv = (1 - alpha_t) / sqrtmab` (line 53), elementwise. -/
noncomputable def mab_over_sqrtmab (beta1 beta2 : ℝ) (T : ℕ) : List ℝ :=
  List.zipWith (fun a m => (1 - a) / m) (alpha_t beta1 beta2 T) (sqrtmab beta1 beta2 T)

/-- The support of `torch.randint(lo, hi, ...)`: integers drawn uniformly
from `[lo, hi)`. -/
def randint_support (lo hi : ℕ) : Finset ℕ := Finset.Ico lo hi

/-- The dictionary of seven sequences returned by `DDPM.ddpm_schedules`
(lines 55-63). -/
structure Schedule where
  alpha_t : List ℝ
  oneover_sqrta : List ℝ
  sqrt_beta_t : List ℝ
  alphabar_t : List ℝ
  sqrtab : List ℝ
  sqrtmab : List ℝ
  mab_over_sqrtmab : List ℝ

/-- The sequences built from `(beta1, beta2, T)` once the assert has passed. -/
noncomputable def mkSchedule (beta1 beta2 : ℝ) (T : ℕ) : Schedule where
  alpha_t := alpha_t beta1 beta2 T
  oneover_sqrta := oneover_sqrta beta1 beta2 T
  sqrt_beta_t := sqrt_beta_t beta1 beta2 T
  alphabar_t := alphabar_t beta1 beta2 T
  sqrtab := sqrtab beta1 beta2 T
  sqrtmab := sqrtmab beta1 beta2 T
  mab_over_sqrtmab := mab_over_sqrtmab beta1 beta2 T

/-- `DDPM.ddpm_schedules(beta1, beta2, T)` (lines 34-63): the only validation
is `assert beta1 < beta2 < 1.0`; a failed assert raises (modelled as
`Except.error`), otherwise the seven sequences are returned. -/
noncomputable def ddpm_schedules (beta1 beta2 : ℝ) (T : ℕ) : Except String Schedule :=
  if beta1 < beta2 ∧ beta2 < 1 then Except.ok (mkSchedule beta1 beta2 T)
  else Except.error "beta1 and beta2 must be in (0, 1)"

/-- Modelled from the spec: the direct cumulative product
`alpha[0] * alpha[1] * ... * alpha[t]`, the formulation the spec calls the
repeated-multiplication reading of `alpha_bar`, for comparison with the
log-space computation actually in the code. -/
noncomputable def alphabar_prod (beta1 beta2 : ℝ) (T t : ℕ) : ℝ :=
  ∏ s ∈ Finset.range (t + 1), (alpha_t beta1 beta2 T).getD s 0

/-! ### Forward diffusion (`DDPM.forward`, lines 65-81)

Tensors of shape `(B, C, H, W)` are modelled as functions
`Fin B → Fin C → Fin H → Fin W → ℝ`; the random draws `_ts` (per-example
timestep from `torch.randint(1, n_T + 1, (B,))`) and `noise`
(`torch.randn_like(x)`) are oracle parameters. -/

/-- `x_t = sqrtab[_ts, None, None, None] * x + sqrtmab[_ts, None, None, None] * noise`
(lines 74-78): the per-example scalar coefficients `sqrtab[_ts[b]]` and
`sqrtmab[_ts[b]]` are broadcast across the channel, height and width axes;
`x` is only read, the result is a fresh tensor. -/
noncomputable def forward_xt {nb nc nh nw : ℕ} (sched : Schedule) (ts : Fin nb → ℕ)
    (x noise : Fin nb → Fin nc → Fin nh → Fin nw → ℝ) :
    Fin nb → Fin nc → Fin nh → Fin nw → ℝ :=
  fun b c h w =>
    sched.sqrtab.getD (ts b) 0 * x b c h w + sched.sqrtmab.getD (ts b) 0 * noise b c h w

/-! ### Loss shape handling (`DDPM.forward`, line 81)

`forward` ends with `loss_mse(noise, model(x_t, _ts / n_T))` and contains no
shape validation of its own; whether mismatched shapes raise is decided by
`nn.MSELoss`, whose PyTorch semantics are: broadcast the two operands if
their shapes are broadcast-compatible (emitting only a warning when they
differ), raise a runtime error only when they are not broadcastable. -/

/-- PyTorch broadcast compatibility of two shapes, already reversed so that
alignment starts from the trailing dimension: a missing dimension counts as
`1`, and two dimensions are compatible when they are equal or one of them
is `1`. Returns the broadcast (reversed) shape, or `none` when incompatible. -/
def broadcastDimsRev : List ℕ → List ℕ → Option (List ℕ)
  | [], t => some t
  | s, [] => some s
  | a :: s, b :: t =>
    (broadcastDimsRev s t).bind (fun r =>
      if a = b then some (a :: r)
      else if a = 1 then some (b :: r)
      else if b = 1 then some (a :: r)
      else none)

/-- PyTorch broadcast of two shapes (trailing-dimension alignment). -/
def broadcastShapes (s t : List ℕ) : Option (List ℕ) :=
  (broadcastDimsRev s.reverse t.reverse).map List.reverse

/-- Modelled from PyTorch semantics: `nn.MSELoss(target, input)` raises a
runtime error exactly when the two shapes are not broadcastable; a mismatched
but broadcastable pair is broadcast (with a warning, not an error). -/
def mseLossRaises (target input : List ℕ) : Bool :=
  (broadcastShapes target input).isNone

/-- Whether the loss line of `DDPM.forward` (line 81) raises, as a function of
the shape of `noise` and the shape of the denoiser output: the core performs
no shape check of its own, so the outcome is exactly that of `nn.MSELoss`. -/
def forwardLossRaises (noiseShape predShape : List ℕ) : Bool :=
  mseLossRaises noiseShape predShape

/-! ### Reverse sampler (`DDPM.sample`, lines 83-95)

The batch of `n` samples of shape `size` is modelled as a function
`Fin n × σ → ℝ` where `σ` indexes `size`; the denoiser `self.model` is an
oracle taking the current tensor and the scalar normalized timestep (the
value `i / n_T` that line 88 repeats over the batch), and the per-iteration
standard-normal draws `z` (line 90) are an oracle indexed by `i`. -/

/-- `range(self.n_T, 0, -1)` (line 86): the list `[T, T-1, ..., 1]`. -/
def countdown (T : ℕ) : List ℕ := (List.range T).map (fun k => T - k)

/-- `[T, T-1, ..., 2]`: the loop prefix before the final `i == 1` iteration. -/
def countdownTo2 (T : ℕ) : List ℕ := (List.range (T - 1)).map (fun k => T - k)

/-- One iteration of the sampling loop (lines 87-94) at counter value `i`:
`t_is = i / n_T`; `z` is fresh noise if `i > 1` and the scalar `0` otherwise;
`eps = model(x_i, t_is)`; the slice `x_i[:n_sample]` is the identity (the
first axis already has length `n_sample`); and
`x_i = oneover_sqrta[i] * (x_i - eps * mab_over_sqrtmab[i]) + sqrt_beta_t[i] * z`. -/
noncomputable def sampleStep {n : ℕ} {σ : Type} (sched : Schedule) (T : ℕ)
    (model : (Fin n × σ → ℝ) → ℝ → (Fin n × σ → ℝ))
    (z : Fin n × σ → ℝ) (i : ℕ) (x : Fin n × σ → ℝ) : Fin n × σ → ℝ :=
  let t_is : ℝ := (i : ℝ) / (T : ℝ)
  let zz : Fin n × σ → ℝ := if 1 < i then z else fun _ => 0
  let eps := model x t_is
  fun idx =>
    sched.oneover_sqrta.getD i 0 * (x idx - eps idx * sched.mab_over_sqrtmab.getD i 0)
      + sched.sqrt_beta_t.getD i 0 * zz idx

/-- `DDPM.sample(n_sample, size, device)` (lines 83-95) from the initial noise
`x_T` (line 85, an oracle parameter): fold the per-iteration transition over
the counter values `T, T-1, ..., 1`. -/
noncomputable def sample {n : ℕ} {σ : Type} (sched : Schedule) (T : ℕ)
    (model : (Fin n × σ → ℝ) → ℝ → (Fin n × σ → ℝ))
    (zs : ℕ → Fin n × σ → ℝ) (xT : Fin n × σ → ℝ) : Fin n × σ → ℝ :=
  (countdown T).foldl (fun x i => sampleStep sched T model (zs i) i x) xT

/-- `DDPM.sample` instrumented with a counter that increments once per
denoiser invocation (`eps = self.model(x_i, t_is)`, line 92, executed exactly
once per loop iteration). -/
noncomputable def sampleWithCount {n : ℕ} {σ : Type} (sched : Schedule) (T : ℕ)
    (model : (Fin n × σ → ℝ) → ℝ → (Fin n × σ → ℝ))
    (zs : ℕ → Fin n × σ → ℝ) (xT : Fin n × σ → ℝ) : (Fin n × σ → ℝ) × ℕ :=
  (countdown T).foldl
    (fun p i => (sampleStep sched T model (zs i) i p.1, p.2 + 1)) (xT, 0)

section IndexLemmas

lemma getD_map_range {α : Type} (f : ℕ → α) (d : α) (n t : ℕ) (h : t < n) :
    ((List.range n).map f).getD t d = f t := by
  rw [List.getD_eq_getElem _ _ (by simpa using h)]
  simp

lemma beta_t_getD (beta1 beta2 : ℝ) (T t : ℕ) (h : t ≤ T) :
    (beta_t beta1 beta2 T).getD t 0 = (beta2 - beta1) * (t : ℝ) / (T : ℝ) + beta1 := by
  unfold beta_t
  exact getD_map_range _ _ _ _ (Nat.lt_succ_of_le h)

lemma beta_t_length (beta1 beta2 : ℝ) (T : ℕ) :
    (beta_t beta1 beta2 T).length = T + 1 := by
  simp [beta_t]

lemma alpha_t_length (beta1 beta2 : ℝ) (T : ℕ) :
    (alpha_t beta1 beta2 T).length = T + 1 := by
  simp [alpha_t, beta_t]

lemma alpha_t_getD (beta1 beta2 : ℝ) (T t : ℕ) (h : t ≤ T) :
    (alpha_t beta1 beta2 T).getD t 0 = 1 - ((beta2 - beta1) * (t : ℝ) / (T : ℝ) + beta1) := by
  unfold alpha_t beta_t
  rw [List.map_map]
  exact getD_map_range _ _ _ _ (Nat.lt_succ_of_le h)

lemma cumsum_getD (l : List ℝ) (t : ℕ) (h : t < l.length) :
    (cumsum l).getD t 0 = ∑ s ∈ Finset.range (t + 1), l.getD s 0 := by
  unfold cumsum
  exact getD_map_range _ _ _ _ h

lemma log_alpha_t_length (beta1 beta2 : ℝ) (T : ℕ) :
    (log_alpha_t beta1 beta2 T).length = T + 1 := by
  simp [log_alpha_t, alpha_t, beta_t]

lemma log_alpha_t_getD (beta1 beta2 : ℝ) (T t : ℕ) (h : t ≤ T) :
    (log_alpha_t beta1 beta2 T).getD t 0 =
      Real.log ((alpha_t beta1 beta2 T).getD t 0) := by
  unfold log_alpha_t alpha_t beta_t
  rw [List.map_map, List.map_map]
  rw [getD_map_range _ _ _ _ (Nat.lt_succ_of_le h)]
  rw [List.map_map, getD_map_range _ _ _ _ (Nat.lt_succ_of_le h)]
  rfl

lemma alphabar_t_length (beta1 beta2 : ℝ) (T : ℕ) :
    (alphabar_t beta1 beta2 T).length = T + 1 := by
  simp [alphabar_t, cumsum, log_alpha_t, alpha_t, beta_t]

lemma alphabar_t_getD (beta1 beta2 : ℝ) (T t : ℕ) (h : t ≤ T) :
    (alphabar_t beta1 beta2 T).getD t 0 =
      Real.exp (∑ s ∈ Finset.range (t + 1), (log_alpha_t beta1 beta2 T).getD s 0) := by
  unfold alphabar_t
  have hlen : t < (cumsum (log_alpha_t beta1 beta2 T)).length := by
    simp [cumsum, log_alpha_t, alpha_t, beta_t]
    omega
  calc ((cumsum (log_alpha_t beta1 beta2 T)).map Real.exp).getD t 0
      = Real.exp ((cumsum (log_alpha_t beta1 beta2 T)).getD t 0) := by
        rw [List.getD_eq_getElem _ _ (by simpa using hlen)]
        rw [List.getD_eq_getElem _ _ hlen]
        simp
    _ = _ := by
        rw [cumsum_getD _ _ (by rw [log_alpha_t_length]; omega)]

lemma sqrtab_getD (beta1 beta2 : ℝ) (T t : ℕ) (h : t ≤ T) :
    (sqrtab beta1 beta2 T).getD t 0 =
      Real.sqrt ((alphabar_t beta1 beta2 T).getD t 0) := by
  unfold sqrtab
  have hlen : t < (alphabar_t beta1 beta2 T).length := by
    rw [alphabar_t_length]; omega
  rw [List.getD_eq_getElem _ _ (by simpa using hlen), List.getD_eq_getElem _ _ hlen]
  simp

/-- For valid bounds every `beta[t]` with `t ≤ T` lies in `[beta1, beta2]`,
hence `alpha[t] = 1 - beta[t]` is strictly positive. -/
lemma alpha_t_pos (beta1 beta2 : ℝ) (T t : ℕ)
    (h12 : beta1 < beta2) (h2 : beta2 < 1) (ht : t ≤ T) :
    0 < (alpha_t beta1 beta2 T).getD t 0 := by
  rw [alpha_t_getD _ _ _ _ ht]
  have hfrac : (beta2 - beta1) * (t : ℝ) / (T : ℝ) ≤ beta2 - beta1 := by
    rcases Nat.eq_zero_or_pos T with hT | hT
    · subst hT
      simp
      linarith
    · have hTpos : (0 : ℝ) < T := by exact_mod_cast hT
      rw [div_le_iff₀ hTpos]
      have htT : (t : ℝ) ≤ (T : ℝ) := by exact_mod_cast ht
      nlinarith
  nlinarith

end IndexLemmas

section ScheduleZero

/-- Because the cumulative sum of logs starts at index 0, the first entry of
`alphabar_t` is `alpha[0] = 1 - beta1`, not `1`. -/
lemma alphabar_t_zero (beta1 beta2 : ℝ) (T : ℕ) (hb : beta1 < 1) :
    (alphabar_t beta1 beta2 T).getD 0 0 = 1 - beta1 := by
  rw [alphabar_t_getD _ _ _ 0 (Nat.zero_le T), Finset.sum_range_one,
    log_alpha_t_getD _ _ _ 0 (Nat.zero_le T), alpha_t_getD _ _ _ 0 (Nat.zero_le T)]
  norm_num
  exact Real.exp_log (by linarith)

end ScheduleZero

/-- C7: for valid `(beta_min, beta_max, step_count)` the beta sequence has
exactly `step_count + 1` entries, `beta[t] = beta_min + (beta_max - beta_min) * t / step_count`
for every `t ≤ step_count`, `beta[0] = beta_min` and `beta[step_count] = beta_max`. -/
theorem beta_schedule_linear (beta1 beta2 : ℝ) (T : ℕ)
    (h1 : 0 < beta1) (h12 : beta1 < beta2) (h2 : beta2 < 1) (hT : 1 ≤ T) :
    (beta_t beta1 beta2 T).length = T + 1 ∧
    (∀ t, t ≤ T →
      (beta_t beta1 beta2 T).getD t 0 = beta1 + (beta2 - beta1) * (t : ℝ) / (T : ℝ)) ∧
    (beta_t beta1 beta2 T).getD 0 0 = beta1 ∧
    (beta_t beta1 beta2 T).getD T 0 = beta2 := by
  refine ⟨beta_t_length beta1 beta2 T, ?_, ?_, ?_⟩
  · intro t ht
    rw [beta_t_getD _ _ _ _ ht]
    ring
  · rw [beta_t_getD _ _ _ 0 (Nat.zero_le T)]
    norm_num
  · rw [beta_t_getD _ _ _ T le_rfl]
    have hTne : (T : ℝ) ≠ 0 := by
      have : (0 : ℝ) < T := by exact_mod_cast hT
      linarith
    field_simp

/-- Witness for `beta_schedule_linear` at `(1/4, 1/2, 2)`. -/
theorem beta_schedule_linear_witness :
    (0 < (1/4 : ℝ) ∧ (1/4 : ℝ) < 1/2 ∧ (1/2 : ℝ) < 1 ∧ 1 ≤ 2) ∧
    ((beta_t (1/4) (1/2) 2).length = 2 + 1 ∧
     (∀ t, t ≤ 2 →
       (beta_t (1/4) (1/2) 2).getD t 0 = 1/4 + (1/2 - 1/4) * (t : ℝ) / (2 : ℝ)) ∧
     (beta_t (1/4) (1/2) 2).getD 0 0 = 1/4 ∧
     (beta_t (1/4) (1/2) 2).getD 2 0 = 1/2) :=
  ⟨by norm_num,
   beta_schedule_linear (1/4) (1/2) 2 (by norm_num) (by norm_num) (by norm_num) (by norm_num)⟩

/-- C8: for a valid schedule input and `t ≤ step_count`, the log-space
computation `exp(cumsum(log alpha))[t]` equals the direct cumulative product
`alpha[0] * ... * alpha[t]`: the two formulations of `alpha_bar` agree in
exact real arithmetic. -/
theorem alphabar_log_space_eq_prod (beta1 beta2 : ℝ) (T t : ℕ)
    (h1 : 0 < beta1) (h12 : beta1 < beta2) (h2 : beta2 < 1) (ht : t ≤ T) :
    (alphabar_t beta1 beta2 T).getD t 0 = alphabar_prod beta1 beta2 T t := by
  rw [alphabar_t_getD _ _ _ _ ht]
  have hsum : ∑ s ∈ Finset.range (t + 1), (log_alpha_t beta1 beta2 T).getD s 0
      = ∑ s ∈ Finset.range (t + 1), Real.log ((alpha_t beta1 beta2 T).getD s 0) := by
    refine Finset.sum_congr rfl (fun s hs => ?_)
    have hsT : s ≤ T :=
      le_trans (Nat.lt_succ_iff.mp (Finset.mem_range.mp hs)) ht
    exact log_alpha_t_getD _ _ _ _ hsT
  rw [hsum, Real.exp_sum]
  refine Finset.prod_congr rfl (fun s hs => ?_)
  have hsT : s ≤ T :=
    le_trans (Nat.lt_succ_iff.mp (Finset.mem_range.mp hs)) ht
  exact Real.exp_log (alpha_t_pos _ _ _ _ h12 h2 hsT)

/-- Witness for `alphabar_log_space_eq_prod` at `(1/4, 1/2, 1)`, `t = 1`. -/
theorem alphabar_log_space_eq_prod_witness :
    (0 < (1/4 : ℝ) ∧ (1/4 : ℝ) < 1/2 ∧ (1/2 : ℝ) < 1 ∧ 1 ≤ 1) ∧
    (alphabar_t (1/4) (1/2) 1).getD 1 0 = alphabar_prod (1/4) (1/2) 1 1 :=
  ⟨by norm_num,
   alphabar_log_space_eq_prod (1/4) (1/2) 1 1 (by norm_num) (by norm_num) (by norm_num) le_rfl⟩

/-- C1 counterexample: at the valid input `(beta_min, beta_max, step_count) =
(1/4, 1/2, 1)` the schedule has `alpha_bar[0] = 3/4` and
`sqrt_alpha_bar[0] = sqrt(3/4)`, neither equal to `1`: the cumulative sum of
logs starts at index 0, so step 0 is already corrupted by `beta[0] = beta_min`. -/
theorem alphabar_zero_ne_one_cex :
    (0 < (1/4 : ℝ) ∧ (1/4 : ℝ) < 1/2 ∧ (1/2 : ℝ) < 1 ∧ (1 : ℕ) ≤ 1) ∧
    (alphabar_t (1/4) (1/2) 1).getD 0 0 ≠ 1 ∧
    (sqrtab (1/4) (1/2) 1).getD 0 0 ≠ 1 := by
  have hab : (alphabar_t (1/4 : ℝ) (1/2) 1).getD 0 0 = 3/4 := by
    rw [alphabar_t_zero (1/4) (1/2) 1 (by norm_num)]
    norm_num
  refine ⟨by norm_num, ?_, ?_⟩
  · rw [hab]; norm_num
  · rw [sqrtab_getD _ _ _ 0 (Nat.zero_le 1), hab]
    rw [ne_eq, Real.sqrt_eq_one]
    norm_num

/-- C1 amended: for every valid `(beta_min, beta_max, step_count)` the first
schedule entries are `alpha_bar[0] = 1 - beta_min` and
`sqrt_alpha_bar[0] = sqrt(1 - beta_min)`, both strictly below `1`: step 0
carries the corruption of `beta[0] = beta_min` rather than none. -/
theorem alphabar_zero_eq_one_sub_beta1 (beta1 beta2 : ℝ) (T : ℕ)
    (h1 : 0 < beta1) (h12 : beta1 < beta2) (h2 : beta2 < 1) :
    (alphabar_t beta1 beta2 T).getD 0 0 = 1 - beta1 ∧
    (alphabar_t beta1 beta2 T).getD 0 0 < 1 ∧
    (sqrtab beta1 beta2 T).getD 0 0 = Real.sqrt (1 - beta1) ∧
    (sqrtab beta1 beta2 T).getD 0 0 < 1 := by
  have hb1 : beta1 < 1 := lt_trans h12 h2
  have hab := alphabar_t_zero beta1 beta2 T hb1
  have hsq : (sqrtab beta1 beta2 T).getD 0 0 = Real.sqrt (1 - beta1) := by
    rw [sqrtab_getD _ _ _ 0 (Nat.zero_le T), hab]
  refine ⟨hab, by rw [hab]; linarith, hsq, ?_⟩
  rw [hsq]
  have hlt : Real.sqrt (1 - beta1) < Real.sqrt 1 :=
    Real.sqrt_lt_sqrt (by linarith) (by linarith)
  simpa using hlt

/-- Witness for `alphabar_zero_eq_one_sub_beta1` at `(1/4, 1/2, 3)`. -/
theorem alphabar_zero_eq_one_sub_beta1_witness :
    (0 < (1/4 : ℝ) ∧ (1/4 : ℝ) < 1/2 ∧ (1/2 : ℝ) < 1) ∧
    ((alphabar_t (1/4) (1/2) 3).getD 0 0 = 1 - 1/4 ∧
     (alphabar_t (1/4) (1/2) 3).getD 0 0 < 1 ∧
     (sqrtab (1/4) (1/2) 3).getD 0 0 = Real.sqrt (1 - 1/4) ∧
     (sqrtab (1/4) (1/2) 3).getD 0 0 < 1) :=
  ⟨by norm_num,
   alphabar_zero_eq_one_sub_beta1 (1/4) (1/2) 3 (by norm_num) (by norm_num) (by norm_num)⟩

/-- C2 counterexample: `ddpm_schedules` does not fail on `beta_min = -1/4 ≤ 0`
(with `beta_max = 1/2`, `step_count = 3`), nor on `step_count = 0 < 1` with
valid bounds `(1/4, 1/2)`: its only check is `beta1 < beta2 < 1.0`. -/
theorem ddpm_schedules_no_precheck_cex :
    (∃ s, ddpm_schedules (-(1/4)) (1/2) 3 = Except.ok s) ∧
    ¬(0 < (-(1/4) : ℝ)) ∧
    (∃ s, ddpm_schedules (1/4) (1/2) 0 = Except.ok s) ∧
    ¬((1 : ℕ) ≤ 0) ∧
    (0 < (1/4 : ℝ) ∧ (1/4 : ℝ) < 1/2 ∧ (1/2 : ℝ) < 1) := by
  refine ⟨⟨mkSchedule (-(1/4)) (1/2) 3, ?_⟩, by norm_num,
    ⟨mkSchedule (1/4) (1/2) 0, ?_⟩, by norm_num, by norm_num⟩
  · rw [ddpm_schedules, if_pos (by norm_num)]
  · rw [ddpm_schedules, if_pos (by norm_num)]

/-- C2 amended: `ddpm_schedules` succeeds exactly when `beta1 < beta2 < 1.0`
(the condition of the assert on line 41) and raises otherwise; it does not
validate `0 < beta_min` or `step_count >= 1`. -/
theorem ddpm_schedules_ok_iff (beta1 beta2 : ℝ) (T : ℕ) :
    (∃ s, ddpm_schedules beta1 beta2 T = Except.ok s) ↔ (beta1 < beta2 ∧ beta2 < 1) := by
  constructor
  · intro ⟨s, hs⟩
    by_contra h
    rw [ddpm_schedules, if_neg h] at hs
    exact Except.noConfusion hs
  · intro h
    exact ⟨mkSchedule beta1 beta2 T, by rw [ddpm_schedules, if_pos h]⟩

section SamplerLemmas

lemma countdown_length (T : ℕ) : (countdown T).length = T := by
  simp [countdown]

lemma countdown_getD (T k : ℕ) (h : k < T) : (countdown T).getD k 0 = T - k := by
  unfold countdown
  exact getD_map_range _ _ _ _ h

lemma countdown_mem (T i : ℕ) (h : i ∈ countdown T) : 1 ≤ i ∧ i ≤ T := by
  unfold countdown at h
  rw [List.mem_map] at h
  obtain ⟨k, hk, rfl⟩ := h
  rw [List.mem_range] at hk
  omega

lemma countdown_split (T : ℕ) (hT : 1 ≤ T) : countdown T = countdownTo2 T ++ [1] := by
  obtain ⟨m, rfl⟩ : ∃ m, T = m + 1 := ⟨T - 1, by omega⟩
  unfold countdown countdownTo2
  rw [List.range_succ, List.map_append]
  simp

lemma foldl_with_count {β : Type} (g : ℕ → β → β) (l : List ℕ) (x : β) (c : ℕ) :
    (l.foldl (fun p i => (g i p.1, p.2 + 1)) (x, c)).2 = c + l.length := by
  induction l generalizing x c with
  | nil => simp
  | cons a l ih => simpa [ih] using by omega

lemma foldl_with_count_fst {β : Type} (g : ℕ → β → β) (l : List ℕ) (x : β) (c : ℕ) :
    (l.foldl (fun p i => (g i p.1, p.2 + 1)) (x, c)).1 = l.foldl (fun x i => g i x) x := by
  induction l generalizing x c with
  | nil => rfl
  | cons a l ih => simpa using ih (g a x) (c + 1)

end SamplerLemmas

/-- C4: for `step_count ≥ 1`, `DDPM.sample` invokes the denoiser exactly
`step_count` times — once per value of the counter, which enumerates
`step_count - k` at position `k` (so it decreases strictly from `step_count`
to `1` over exactly `step_count` iterations, with no early termination) — and
the returned tensor is the state produced by the final `i == 1` update applied
after all iterations with `i ≥ 2`. -/
theorem sample_denoiser_call_count {n : ℕ} {σ : Type} (sched : Schedule) (T : ℕ)
    (model : (Fin n × σ → ℝ) → ℝ → (Fin n × σ → ℝ))
    (zs : ℕ → Fin n × σ → ℝ) (xT : Fin n × σ → ℝ) (hT : 1 ≤ T) :
    (sampleWithCount sched T model zs xT).2 = T ∧
    (sampleWithCount sched T model zs xT).1 = sample sched T model zs xT ∧
    (countdown T).length = T ∧
    (∀ k, k < T → (countdown T).getD k 0 = T - k) ∧
    sample sched T model zs xT =
      sampleStep sched T model (zs 1) 1
        ((countdownTo2 T).foldl (fun x i => sampleStep sched T model (zs i) i x) xT) := by
  refine ⟨?_, ?_, countdown_length T, fun k hk => countdown_getD T k hk, ?_⟩
  · have h := foldl_with_count (fun i x => sampleStep sched T model (zs i) i x)
      (countdown T) xT 0
    rw [countdown_length] at h
    simpa [sampleWithCount] using h
  · have h := foldl_with_count_fst (fun i x => sampleStep sched T model (zs i) i x)
      (countdown T) xT 0
    simpa [sampleWithCount, sample] using h
  · rw [sample, countdown_split T hT, List.foldl_append]
    rfl

/-- Witness for `sample_denoiser_call_count` at `T = 1` with trivial oracles. -/
theorem sample_denoiser_call_count_witness :
    (1 : ℕ) ≤ 1 ∧
    ((sampleWithCount (n := 1) (σ := Unit) (mkSchedule (1/4) (1/2) 1) 1
        (fun x _ => x) (fun _ _ => (0:ℝ)) (fun _ => (0:ℝ))).2 = 1 ∧
     (sampleWithCount (n := 1) (σ := Unit) (mkSchedule (1/4) (1/2) 1) 1
        (fun x _ => x) (fun _ _ => (0:ℝ)) (fun _ => (0:ℝ))).1 =
       sample (mkSchedule (1/4) (1/2) 1) 1 (fun x _ => x)
         (fun _ _ => (0:ℝ)) (fun _ => (0:ℝ)) ∧
     (countdown 1).length = 1 ∧
     (∀ k, k < 1 → (countdown 1).getD k 0 = 1 - k) ∧
     sample (n := 1) (σ := Unit) (mkSchedule (1/4) (1/2) 1) 1 (fun x _ => x)
         (fun _ _ => (0:ℝ)) (fun _ => (0:ℝ)) =
       sampleStep (mkSchedule (1/4) (1/2) 1) 1 (fun x _ => x) (fun _ => (0:ℝ)) 1
         ((countdownTo2 1).foldl
           (fun x i => sampleStep (mkSchedule (1/4) (1/2) 1) 1 (fun x _ => x)
             (fun _ => (0:ℝ)) i x) (fun _ => (0:ℝ)))) :=
  ⟨le_rfl,
   sample_denoiser_call_count (mkSchedule (1/4) (1/2) 1) 1
     (fun x _ => x) (fun _ _ => (0:ℝ)) (fun _ => (0:ℝ)) le_rfl⟩

/-- C5: the per-iteration update of `DDPM.sample`: when `i > 1` the state
becomes `oneover_sqrta[i] * (x - eps * mab_over_sqrtmab[i]) + sqrt_beta_t[i] * z`
with `z` the fresh noise for that iteration and
`eps = model(x, i / step_count)`; when `i == 1` the noise term vanishes
exactly (the injected noise is the additive zero). -/
theorem sampleStep_update {n : ℕ} {σ : Type} (sched : Schedule) (T : ℕ)
    (model : (Fin n × σ → ℝ) → ℝ → (Fin n × σ → ℝ))
    (z : Fin n × σ → ℝ) (i : ℕ) (x : Fin n × σ → ℝ) :
    (1 < i → sampleStep sched T model z i x = fun idx =>
      sched.oneover_sqrta.getD i 0 *
          (x idx - model x ((i : ℝ) / (T : ℝ)) idx * sched.mab_over_sqrtmab.getD i 0)
        + sched.sqrt_beta_t.getD i 0 * z idx) ∧
    (sampleStep sched T model z 1 x = fun idx =>
      sched.oneover_sqrta.getD 1 0 *
        (x idx - model x ((1 : ℝ) / (T : ℝ)) idx * sched.mab_over_sqrtmab.getD 1 0)) := by
  constructor
  · intro hi
    funext idx
    simp only [sampleStep, if_pos hi]
  · funext idx
    have h11 : ¬ (1 < 1) := by omega
    simp only [sampleStep, if_neg h11, Nat.cast_one]
    ring

/-- Witness for `sampleStep_update` at `i = 2` with trivial oracles. -/
theorem sampleStep_update_witness :
    (1 : ℕ) < 2 ∧
    sampleStep (n := 1) (σ := Unit) (mkSchedule (1/4) (1/2) 2) 2
        (fun x _ => x) (fun _ => 0) 2 (fun _ => 0) = (fun idx =>
      (mkSchedule (1/4) (1/2) 2).oneover_sqrta.getD 2 0 *
          ((fun _ : Fin 1 × Unit => (0:ℝ)) idx -
            (fun x _ => x) (fun _ : Fin 1 × Unit => (0:ℝ)) ((2 : ℝ) / (2 : ℝ)) idx *
              (mkSchedule (1/4) (1/2) 2).mab_over_sqrtmab.getD 2 0)
        + (mkSchedule (1/4) (1/2) 2).sqrt_beta_t.getD 2 0 * (fun _ : Fin 1 × Unit => (0:ℝ)) idx) :=
  ⟨by omega,
   by
     have h := (sampleStep_update (n := 1) (σ := Unit) (mkSchedule (1/4) (1/2) 2) 2
       (fun x _ => x) (fun _ => 0) 2 (fun _ => 0)).1 (by omega)
     simpa using h⟩

/-- C6: with the per-example timestep drawn from the support of
`torch.randint(1, step_count + 1, (B,))`, every drawn `t` lies in
`{1, ..., step_count}`, the corrupted batch satisfies
`x_t[b,c,h,w] = sqrtab[t_b] * x0[b,c,h,w] + sqrtmab[t_b] * noise[b,c,h,w]`
pointwise, and for each batch element the two coefficients are single
per-example scalars broadcast over all of `(c, h, w)`; `x0` enters only by
reading. -/
theorem forward_corruption {nb nc nh nw T : ℕ} (sched : Schedule) (ts : Fin nb → ℕ)
    (hts : ∀ b, ts b ∈ randint_support 1 (T + 1))
    (x noise : Fin nb → Fin nc → Fin nh → Fin nw → ℝ) :
    (∀ b, 1 ≤ ts b ∧ ts b ≤ T) ∧
    (∀ b c h w, forward_xt sched ts x noise b c h w =
      sched.sqrtab.getD (ts b) 0 * x b c h w + sched.sqrtmab.getD (ts b) 0 * noise b c h w) ∧
    (∀ b, ∃ a m : ℝ, ∀ c h w, forward_xt sched ts x noise b c h w =
      a * x b c h w + m * noise b c h w) := by
  refine ⟨fun b => ?_, fun b c h w => rfl, fun b => ?_⟩
  · have hb := hts b
    rw [randint_support, Finset.mem_Ico] at hb
    omega
  · exact ⟨sched.sqrtab.getD (ts b) 0, sched.sqrtmab.getD (ts b) 0, fun c h w => rfl⟩

/-- Witness for `forward_corruption` at a one-element batch with `t = 1`,
`T = 1`. -/
theorem forward_corruption_witness :
    (∀ _ : Fin 1, (1 : ℕ) ∈ randint_support 1 (1 + 1)) ∧
    ((∀ _ : Fin 1, (1 : ℕ) ≤ 1 ∧ (1 : ℕ) ≤ 1) ∧
     (∀ (b c h w : Fin 1),
       @forward_xt 1 1 1 1 (mkSchedule (1/4) (1/2) 1)
           (fun _ => 1) (fun _ _ _ _ => (0:ℝ)) (fun _ _ _ _ => (0:ℝ)) b c h w =
         (mkSchedule (1/4) (1/2) 1).sqrtab.getD 1 0 * 0
           + (mkSchedule (1/4) (1/2) 1).sqrtmab.getD 1 0 * 0) ∧
     (∀ b : Fin 1, ∃ a m : ℝ, ∀ (c h w : Fin 1),
       @forward_xt 1 1 1 1 (mkSchedule (1/4) (1/2) 1)
           (fun _ => 1) (fun _ _ _ _ => (0:ℝ)) (fun _ _ _ _ => (0:ℝ)) b c h w =
         a * 0 + m * 0)) :=
  ⟨fun _ => by decide,
   @forward_corruption 1 1 1 1 1
     (mkSchedule (1/4) (1/2) 1) (fun _ : Fin 1 => 1)
     (fun _ => by simp [randint_support]) (fun _ _ _ _ => (0:ℝ)) (fun _ _ _ _ => (0:ℝ))⟩

/-- C3 counterexample: `noise` of shape `[2, 1, 2, 2]` against a denoiser
output of shape `[2, 1, 2, 1]`: the shapes disagree, yet the pair is
broadcast-compatible, so the loss line broadcasts and raises nothing — no
`ShapeMismatchError` exists in the code. -/
theorem forward_loss_broadcast_cex :
    ([2, 1, 2, 2] : List ℕ) ≠ [2, 1, 2, 1] ∧
    forwardLossRaises [2, 1, 2, 2] [2, 1, 2, 1] = false ∧
    broadcastShapes [2, 1, 2, 2] [2, 1, 2, 1] = some [2, 1, 2, 2] := by
  constructor
  · decide
  · constructor <;> decide

/-- C3 amended: `DDPM.forward` performs no shape validation of its own; the
`nn.MSELoss` call raises exactly for shape pairs that are not
broadcast-compatible, equal shapes never raise, and a disagreeing but
broadcastable denoiser output is silently broadcast. -/
theorem forward_loss_raises_iff (noiseShape predShape : List ℕ) :
    (forwardLossRaises noiseShape predShape = true ↔
      broadcastShapes noiseShape predShape = none) ∧
    forwardLossRaises noiseShape noiseShape = false := by
  constructor
  · simp [forwardLossRaises, mseLossRaises, Option.isNone_iff_eq_none]
  · have hself : ∀ l : List ℕ, broadcastDimsRev l l = some l := by
      intro l
      induction l with
      | nil => rfl
      | cons a l ih => simp [broadcastDimsRev, ih]
    simp [forwardLossRaises, mseLossRaises, broadcastShapes, hself]

/-- C9: for `step_count = 1` the sampler is safe: every schedule sequence it
indexes has length `2` so the only access (index `1`) is in bounds, the loop
body runs exactly once at `i = 1`, and the returned batch is the single
`i = 1` update of the initial noise, with no injected noise. -/
theorem sample_single_step_safe {n : ℕ} {σ : Type} (beta1 beta2 : ℝ)
    (h1 : 0 < beta1) (h12 : beta1 < beta2) (h2 : beta2 < 1)
    (model : (Fin n × σ → ℝ) → ℝ → (Fin n × σ → ℝ))
    (zs : ℕ → Fin n × σ → ℝ) (xT : Fin n × σ → ℝ) :
    1 < (mkSchedule beta1 beta2 1).oneover_sqrta.length ∧
    1 < (mkSchedule beta1 beta2 1).mab_over_sqrtmab.length ∧
    1 < (mkSchedule beta1 beta2 1).sqrt_beta_t.length ∧
    countdown 1 = [1] ∧
    sample (mkSchedule beta1 beta2 1) 1 model zs xT =
      sampleStep (mkSchedule beta1 beta2 1) 1 model (zs 1) 1 xT ∧
    sampleStep (mkSchedule beta1 beta2 1) 1 model (zs 1) 1 xT = fun idx =>
      (mkSchedule beta1 beta2 1).oneover_sqrta.getD 1 0 *
        (xT idx - model xT ((1 : ℝ) / (1 : ℝ)) idx *
          (mkSchedule beta1 beta2 1).mab_over_sqrtmab.getD 1 0) := by
  refine ⟨?_, ?_, ?_, by decide, rfl, ?_⟩
  · simp [mkSchedule, oneover_sqrta, alpha_t, beta_t]
  · simp [mkSchedule, mab_over_sqrtmab, sqrtmab, alphabar_t, cumsum, log_alpha_t,
      alpha_t, beta_t]
  · simp [mkSchedule, sqrt_beta_t, beta_t]
  · have h := (sampleStep_update (mkSchedule beta1 beta2 1) 1 model (zs 1) 1 xT).2
    simpa using h

/-- Witness for `sample_single_step_safe` at `(1/4, 1/2)` with trivial
oracles. -/
theorem sample_single_step_safe_witness :
    (0 < (1/4 : ℝ) ∧ (1/4 : ℝ) < 1/2 ∧ (1/2 : ℝ) < 1) ∧
    (1 < (mkSchedule (1/4 : ℝ) (1/2) 1).oneover_sqrta.length ∧
     1 < (mkSchedule (1/4 : ℝ) (1/2) 1).mab_over_sqrtmab.length ∧
     1 < (mkSchedule (1/4 : ℝ) (1/2) 1).sqrt_beta_t.length ∧
     countdown 1 = [1] ∧
     sample (n := 1) (σ := Unit) (mkSchedule (1/4 : ℝ) (1/2) 1) 1
         (fun x _ => x) (fun _ _ => 0) (fun _ => 0) =
       sampleStep (mkSchedule (1/4 : ℝ) (1/2) 1) 1 (fun x _ => x) (fun _ => (0:ℝ)) 1
         (fun _ => 0) ∧
     sampleStep (n := 1) (σ := Unit) (mkSchedule (1/4 : ℝ) (1/2) 1) 1
         (fun x _ => x) (fun _ => (0:ℝ)) 1 (fun _ => 0) = fun idx =>
       (mkSchedule (1/4 : ℝ) (1/2) 1).oneover_sqrta.getD 1 0 *
         ((fun _ : Fin 1 × Unit => (0:ℝ)) idx -
           (fun x _ => x) (fun _ : Fin 1 × Unit => (0:ℝ)) ((1 : ℝ) / (1 : ℝ)) idx *
             (mkSchedule (1/4 : ℝ) (1/2) 1).mab_over_sqrtmab.getD 1 0)) :=
  ⟨by norm_num,
   sample_single_step_safe (1/4) (1/2) (by norm_num) (by norm_num) (by norm_num)
     (fun x _ => x) (fun _ _ => 0) (fun _ => 0)⟩

/-- C10: every normalized timestep handed to the denoiser lies in `(0, 1]`:
in training it is `t / step_count` for `t` in the support of
`randint(1, step_count + 1)`, and in sampling it is `i / step_count` for `i`
in the countdown `step_count, ..., 1`; neither is ever `0`. -/
theorem t_norm_in_unit_interval (T : ℕ) (hT : 1 ≤ T) :
    (∀ t ∈ randint_support 1 (T + 1),
      0 < (t : ℝ) / (T : ℝ) ∧ (t : ℝ) / (T : ℝ) ≤ 1) ∧
    (∀ i ∈ countdown T,
      0 < (i : ℝ) / (T : ℝ) ∧ (i : ℝ) / (T : ℝ) ≤ 1) := by
  have hTpos : (0 : ℝ) < T := by exact_mod_cast hT
  have key : ∀ j : ℕ, 1 ≤ j → j ≤ T → 0 < (j : ℝ) / (T : ℝ) ∧ (j : ℝ) / (T : ℝ) ≤ 1 := by
    intro j hj1 hjT
    constructor
    · apply div_pos _ hTpos
      exact_mod_cast hj1
    · rw [div_le_one hTpos]
      exact_mod_cast hjT
  constructor
  · intro t ht
    rw [randint_support, Finset.mem_Ico] at ht
    exact key t ht.1 (by omega)
  · intro i hi
    obtain ⟨hi1, hiT⟩ := countdown_mem T i hi
    exact key i hi1 hiT

/-- Witness for `t_norm_in_unit_interval` at `T = 2`. -/
theorem t_norm_in_unit_interval_witness :
    (1 : ℕ) ≤ 2 ∧
    ((∀ t ∈ randint_support 1 (2 + 1),
       0 < (t : ℝ) / (2 : ℝ) ∧ (t : ℝ) / (2 : ℝ) ≤ 1) ∧
     (∀ i ∈ countdown 2,
       0 < (i : ℝ) / (2 : ℝ) ∧ (i : ℝ) / (2 : ℝ) ≤ 1)) :=
  ⟨by omega, t_norm_in_unit_interval 2 (by omega)⟩

end DDPM
